import Mathlib

set_option maxRecDepth 1000000

/-!
# Verification of the 1D diffusion notebook

A shallow embedding of `notebooks/Diffusion-model.ipynb`: a 1D FTCS
diffusion model with constant diffusivity, a regular grid, a step-function
initial condition and fixed (Dirichlet) boundary conditions.  Concentration
fields are `List ℚ`; NumPy slices `C[1:-1]`, `C[:-2]`, `C[2:]` become
`(C.drop 1).dropLast`, `C.dropLast.dropLast` and `C.drop 2`, and the
augmented assignment `C[1:-1] += rhs` first materialises `rhs` from the
pre-step field and then writes it back into the interior slice.
-/

namespace Diffusion

/-- `D = 100`, the diffusivity. -/
def D : ℚ := 100

/-- `Lx = 300`, the length of the model domain. -/
def Lx : ℚ := 300

/-- `dx = 0.5`, the grid spacing. -/
def dx : ℚ := 1/2

/-- `x = np.arange(start=0, stop=Lx, step=dx)`: for a positive step,
`np.arange` produces `⌈(stop - start)/step⌉` values `start + i*step`. -/
def xgrid : List ℚ :=
  (List.range (((Lx - 0) / dx).ceil.toNat)).map (fun i : ℕ => 0 + (i : ℚ) * dx)

/-- `nx = len(x)`. -/
def nx : ℕ := xgrid.length

/-- `C_left = 500`. -/
def C_left : ℚ := 500

/-- `C_right = 0`. -/
def C_right : ℚ := 0

/-- The initial field: `C = np.zeros_like(x); C[x <= Lx/2] = C_left;
C[x > Lx/2] = C_right`.  The two masks partition the grid, so each entry is
`C_left` where `x ≤ Lx/2` and `C_right` where `x > Lx/2`. -/
def initC : List ℚ := xgrid.map (fun xi => if xi ≤ Lx / 2 then C_left else C_right)

/-- `nt = 5000`, the number of time steps. -/
def nt : ℕ := 5000

/-- `dt = 0.5 * dx**2 / D`, the stable time step. -/
def dt : ℚ := 1/2 * dx ^ 2 / D

/-- The diffusion number `D * dt / dx**2` appearing in the update. -/
def r : ℚ := D * dt / dx ^ 2

/-- Elementwise combination of three lists (the NumPy expression
`a - 2*b + c` on three equal-length slices). -/
def zip3With (f : ℚ → ℚ → ℚ → ℚ) : List ℚ → List ℚ → List ℚ → List ℚ
  | a :: as, b :: bs, c :: cs => f a b c :: zip3With f as bs cs
  | _, _, _ => []

/-- The temporary array `c * (C[:-2] - 2*C[1:-1] + C[2:])` that NumPy
materialises before the in-place write-back. -/
def rhsTemp (c : ℚ) (C : List ℚ) : List ℚ :=
  zip3With (fun a b d => c * (a - 2 * b + d))
    (C.dropLast.dropLast) ((C.drop 1).dropLast) (C.drop 2)

/-- One execution of `C[1:-1] += c * (C[:-2] - 2*C[1:-1] + C[2:])`:
the head slice `C[:1]`, then the interior slice incremented by the
materialised temporary, then the tail slice `C[len-1:]` (empty slices when
the list is too short, matching NumPy). -/
def stepOnce (c : ℚ) (C : List ℚ) : List ℚ :=
  C.take 1 ++ List.zipWith (· + ·) ((C.drop 1).dropLast) (rhsTemp c C)
    ++ C.drop (max (C.length - 1) 1)

/-- The field after `k` iterations of the time-stepping loop
`for t in range(0, nt): C[1:-1] += D*dt/dx**2 * (...)`. -/
def run (k : ℕ) : List ℚ := (stepOnce r)^[k] initC

/-- The update described by the spec's double-buffering contract: every output
entry is computed into a fresh buffer, reading only pre-step values; interior
entries get the FTCS formula, boundary entries are copied unchanged. -/
def stepBuffered (c : ℚ) (C : List ℚ) : List ℚ :=
  (List.range C.length).map (fun i =>
    if 1 ≤ i ∧ i + 1 < C.length then
      C.getD i 0 + c * (C.getD (i - 1) 0 - 2 * C.getD i 0 + C.getD (i + 1) 0)
    else C.getD i 0)

lemma zip3With_length (f : ℚ → ℚ → ℚ → ℚ) :
    ∀ as bs cs : List ℚ,
      (zip3With f as bs cs).length = min as.length (min bs.length cs.length)
  | [], _, _ => by simp [zip3With]
  | _ :: _, [], _ => by simp [zip3With]
  | _ :: _, _ :: _, [] => by simp [zip3With]
  | a :: as, b :: bs, c :: cs => by
    simp only [zip3With, List.length_cons, zip3With_length f as bs cs]
    omega

lemma zip3With_getD (f : ℚ → ℚ → ℚ → ℚ) :
    ∀ (as bs cs : List ℚ) (i : ℕ), i < as.length → i < bs.length → i < cs.length →
      (zip3With f as bs cs).getD i 0 = f (as.getD i 0) (bs.getD i 0) (cs.getD i 0)
  | a :: as, b :: bs, c :: cs, 0, _, _, _ => by simp [zip3With]
  | a :: as, b :: bs, c :: cs, i + 1, h1, h2, h3 => by
    simpa [zip3With] using
      zip3With_getD f as bs cs i (by simpa using h1) (by simpa using h2) (by simpa using h3)

lemma length_rhsTemp (c : ℚ) (C : List ℚ) : (rhsTemp c C).length = C.length - 2 := by
  simp only [rhsTemp, zip3With_length, List.length_dropLast, List.length_drop]
  omega

lemma length_stepOnce (c : ℚ) (C : List ℚ) : (stepOnce c C).length = C.length := by
  simp only [stepOnce, List.length_append, List.length_take, List.length_zipWith,
    List.length_dropLast, List.length_drop, length_rhsTemp]
  omega

lemma interior_getD (C : List ℚ) (j : ℕ) (hj : j < C.length - 2) :
    ((C.drop 1).dropLast).getD j 0 = C.getD (j + 1) 0 := by
  have hlen : j < ((C.drop 1).dropLast).length := by
    simp only [List.length_dropLast, List.length_drop]; omega
  rw [List.getD_eq_getElem _ _ hlen, List.getElem_dropLast,
    List.getElem_drop, List.getD_eq_getElem _ _ (by omega)]
  congr 1
  omega

lemma dropLast_dropLast_getD (C : List ℚ) (j : ℕ) (hj : j < C.length - 2) :
    (C.dropLast.dropLast).getD j 0 = C.getD j 0 := by
  have hlen : j < (C.dropLast.dropLast).length := by
    simp only [List.length_dropLast]; omega
  rw [List.getD_eq_getElem _ _ hlen, List.getElem_dropLast, List.getElem_dropLast,
    List.getD_eq_getElem _ _ (by omega)]

lemma drop_two_getD (C : List ℚ) (j : ℕ) (hj : j < C.length - 2) :
    (C.drop 2).getD j 0 = C.getD (j + 2) 0 := by
  have hlen : j < (C.drop 2).length := by simp only [List.length_drop]; omega
  rw [List.getD_eq_getElem _ _ hlen, List.getElem_drop,
    List.getD_eq_getElem _ _ (by omega)]
  congr 1
  omega

lemma rhsTemp_getD (c : ℚ) (C : List ℚ) (j : ℕ) (hj : j < C.length - 2) :
    (rhsTemp c C).getD j 0 =
      c * (C.getD j 0 - 2 * C.getD (j + 1) 0 + C.getD (j + 2) 0) := by
  rw [rhsTemp, zip3With_getD _ _ _ _ _ (by simp; omega) (by simp; omega) (by simp; omega),
    dropLast_dropLast_getD C j hj, interior_getD C j hj, drop_two_getD C j hj]

lemma zipWith_add_getD (as bs : List ℚ) (j : ℕ) (h1 : j < as.length) (h2 : j < bs.length) :
    (List.zipWith (· + ·) as bs).getD j 0 = as.getD j 0 + bs.getD j 0 := by
  rw [List.getD_eq_getElem _ _ (by simp; omega), List.getElem_zipWith,
    List.getD_eq_getElem _ _ h1, List.getD_eq_getElem _ _ h2]

/-- Pointwise description of one NumPy step: interior entries get the FTCS
update computed from the pre-step field, boundary entries are unchanged. -/
lemma stepOnce_getD (c : ℚ) (C : List ℚ) (i : ℕ) (hi : i < C.length) :
    (stepOnce c C).getD i 0 =
      if 1 ≤ i ∧ i + 1 < C.length then
        C.getD i 0 + c * (C.getD (i - 1) 0 - 2 * C.getD i 0 + C.getD (i + 1) 0)
      else C.getD i 0 := by
  have htake : (C.take 1).length = 1 := by simp; omega
  have hmid : (List.zipWith (· + ·) ((C.drop 1).dropLast) (rhsTemp c C)).length
      = C.length - 2 := by
    simp only [List.length_zipWith, List.length_dropLast, List.length_drop, length_rhsTemp]
    omega
  rcases Nat.eq_zero_or_pos i with h0 | h1
  · subst h0
    rw [stepOnce, List.append_assoc, List.getD_append _ _ _ _ (by omega)]
    rw [List.getD_eq_getElem _ _ (by omega), List.getElem_take,
      List.getD_eq_getElem _ _ hi]
    simp
  · by_cases hlast : i + 1 < C.length
    · -- interior index
      rw [stepOnce, List.append_assoc, List.getD_append_right _ _ _ _ (by omega),
        List.getD_append _ _ _ _ (by rw [hmid]; omega), htake,
        zipWith_add_getD _ _ _ (by simp only [List.length_dropLast, List.length_drop]; omega)
          (by rw [length_rhsTemp]; omega),
        interior_getD C (i - 1) (by omega), rhsTemp_getD c C (i - 1) (by omega)]
      have e1 : i - 1 + 1 = i := by omega
      have e2 : i - 1 + 2 = i + 1 := by omega
      rw [e1, e2, if_pos ⟨h1, hlast⟩]
    · -- last index: i = C.length - 1
      have hieq : i = C.length - 1 := by omega
      have hlenAB : (C.take 1 ++
          List.zipWith (· + ·) ((C.drop 1).dropLast) (rhsTemp c C)).length
          = C.length - 1 := by
        simp only [List.length_append, htake, hmid]
        omega
      rw [stepOnce, List.getD_append_right _ _ _ _ (by rw [hlenAB]; omega), hlenAB]
      have hidx : i - (C.length - 1) = 0 := by omega
      have hmax : max (C.length - 1) 1 = C.length - 1 := by omega
      have hcond : ¬(1 ≤ i ∧ i + 1 < C.length) := by omega
      rw [hidx, hmax,
        List.getD_eq_getElem _ _ (by simp only [List.length_drop]; omega),
        List.getElem_drop, if_neg hcond, List.getD_eq_getElem _ _ hi]
      congr 1
      omega

lemma length_stepBuffered (c : ℚ) (C : List ℚ) : (stepBuffered c C).length = C.length := by
  simp [stepBuffered]

lemma stepBuffered_getD (c : ℚ) (C : List ℚ) (i : ℕ) (hi : i < C.length) :
    (stepBuffered c C).getD i 0 =
      if 1 ≤ i ∧ i + 1 < C.length then
        C.getD i 0 + c * (C.getD (i - 1) 0 - 2 * C.getD i 0 + C.getD (i + 1) 0)
      else C.getD i 0 := by
  rw [List.getD_eq_getElem _ _ (by rw [length_stepBuffered]; exact hi)]
  simp only [stepBuffered, List.getElem_map, List.getElem_range]

/-- Boundary entry at index 0 is unchanged by one step. -/
lemma stepOnce_getD_zero (c : ℚ) (C : List ℚ) :
    (stepOnce c C).getD 0 0 = C.getD 0 0 := by
  rcases C with _ | ⟨a, rest⟩
  · rfl
  · rw [stepOnce_getD c (a :: rest) 0 (by simp)]
    simp

/-- Boundary entry at the last index is unchanged by one step. -/
lemma stepOnce_getD_last (c : ℚ) (C : List ℚ) :
    (stepOnce c C).getD (C.length - 1) 0 = C.getD (C.length - 1) 0 := by
  rcases C with _ | ⟨a, rest⟩
  · rfl
  · rw [stepOnce_getD c (a :: rest) ((a :: rest).length - 1) (by simp)]
    rw [if_neg (by simp only [List.length_cons]; omega)]

lemma length_iterate (c : ℚ) (C : List ℚ) (k : ℕ) :
    ((stepOnce c)^[k] C).length = C.length := by
  induction k with
  | zero => rfl
  | succ k ih => rw [Function.iterate_succ_apply', length_stepOnce, ih]

lemma iterate_getD_zero (c : ℚ) (C : List ℚ) (k : ℕ) :
    ((stepOnce c)^[k] C).getD 0 0 = C.getD 0 0 := by
  induction k with
  | zero => rfl
  | succ k ih => rw [Function.iterate_succ_apply', stepOnce_getD_zero, ih]

lemma iterate_getD_last (c : ℚ) (C : List ℚ) (k : ℕ) :
    ((stepOnce c)^[k] C).getD (C.length - 1) 0 = C.getD (C.length - 1) 0 := by
  induction k with
  | zero => rfl
  | succ k ih =>
    rw [Function.iterate_succ_apply']
    have := stepOnce_getD_last c ((stepOnce c)^[k] C)
    rw [length_iterate] at this
    rw [this, ih]

lemma xgrid_getD (i : ℕ) (hi : i < xgrid.length) : xgrid.getD i 0 = i * dx := by
  rw [xgrid] at hi ⊢
  rw [List.getD_eq_getElem _ _ hi, List.getElem_map, List.getElem_range]
  ring

lemma initC_getD (i : ℕ) (hi : i < xgrid.length) :
    initC.getD i 0 = if xgrid.getD i 0 ≤ Lx / 2 then C_left else C_right := by
  rw [initC, List.getD_eq_getElem _ _ (by simpa using hi), List.getElem_map,
    List.getD_eq_getElem _ _ hi]

lemma stepOnce_short (c : ℚ) (C : List ℚ) (h : C.length < 3) : stepOnce c C = C := by
  rcases C with _ | ⟨a, _ | ⟨b, _ | ⟨d, rest⟩⟩⟩
  · rfl
  · rfl
  · rfl
  · exfalso
    simp only [List.length_cons] at h
    omega

/-- C3: the NumPy in-place slice update, which materialises its right-hand
side before writing back, equals the spec's double-buffered step on every
field. -/
theorem inplace_step_eq_buffered_step (c : ℚ) (C : List ℚ) :
    stepOnce c C = stepBuffered c C := by
  apply List.ext_getElem (by rw [length_stepOnce, length_stepBuffered])
  intro i h1 h2
  have hi : i < C.length := by rwa [length_stepOnce] at h1
  rw [← List.getD_eq_getElem _ (0 : ℚ) h1, ← List.getD_eq_getElem _ (0 : ℚ) h2,
    stepOnce_getD c C i hi, stepBuffered_getD c C i hi]

/-- C4: the time step is derived as `dt = 0.5 * dx^2 / D`, the diffusion
number `D*dt/dx^2` is exactly `1/2`, and with `D = 100`, `dx = 0.5` this
gives `dt = 0.00125`. -/
theorem dt_from_stability_bound :
    dt = 1/2 * dx ^ 2 / D ∧ D * dt / dx ^ 2 = 1/2 ∧ D = 100 ∧ dx = 0.5
    ∧ dt = 0.00125 := by
  refine ⟨rfl, ?_, rfl, ?_, ?_⟩ <;> norm_num [D, dt, dx]

/-- C1: one step sends every interior index `i ∈ [1, nx-2]` to
`C[i] + (D*dt/dx^2) * (C[i-1] - 2*C[i] + C[i+1])` and leaves both boundary
entries unchanged. -/
theorem step_contract (C : List ℚ) (h3 : 3 ≤ C.length) (i : ℕ) (h1 : 1 ≤ i)
    (h2 : i ≤ C.length - 2) :
    (stepOnce (D * dt / dx ^ 2) C).getD i 0
      = C.getD i 0 + D * dt / dx ^ 2 * (C.getD (i - 1) 0 - 2 * C.getD i 0 + C.getD (i + 1) 0)
    ∧ (stepOnce (D * dt / dx ^ 2) C).getD 0 0 = C.getD 0 0
    ∧ (stepOnce (D * dt / dx ^ 2) C).getD (C.length - 1) 0
        = C.getD (C.length - 1) 0 := by
  refine ⟨?_, stepOnce_getD_zero _ _, stepOnce_getD_last _ _⟩
  rw [stepOnce_getD _ _ _ (by omega), if_pos ⟨h1, by omega⟩]

theorem step_contract_witness :
    3 ≤ ([1, 2, 4] : List ℚ).length ∧ 1 ≤ 1 ∧ 1 ≤ ([1, 2, 4] : List ℚ).length - 2
    ∧ ((stepOnce (D * dt / dx ^ 2) [1, 2, 4]).getD 1 0
        = ([1, 2, 4] : List ℚ).getD 1 0 + D * dt / dx ^ 2 *
          (([1, 2, 4] : List ℚ).getD 0 0 - 2 * ([1, 2, 4] : List ℚ).getD 1 0
            + ([1, 2, 4] : List ℚ).getD 2 0)
      ∧ (stepOnce (D * dt / dx ^ 2) [1, 2, 4]).getD 0 0 = ([1, 2, 4] : List ℚ).getD 0 0
      ∧ (stepOnce (D * dt / dx ^ 2) [1, 2, 4]).getD (([1, 2, 4] : List ℚ).length - 1) 0
          = ([1, 2, 4] : List ℚ).getD (([1, 2, 4] : List ℚ).length - 1) 0) :=
  ⟨by decide, le_refl 1, by decide,
    step_contract [1, 2, 4] (by decide) 1 (le_refl 1) (by decide)⟩

/-- C2: for every field and every number of steps, both boundary entries
keep their initial values; in the concrete run the final field still has
`C[0] = 500` and `C[nx-1] = 0` exactly. -/
theorem boundaries_fixed_forever :
    (∀ (C : List ℚ) (k : ℕ),
        ((stepOnce r)^[k] C).getD 0 0 = C.getD 0 0
        ∧ ((stepOnce r)^[k] C).getD (C.length - 1) 0 = C.getD (C.length - 1) 0)
    ∧ (run nt).getD 0 0 = 500 ∧ (run nt).getD (nx - 1) 0 = 0 := by
  refine ⟨fun C k => ⟨iterate_getD_zero r C k, iterate_getD_last r C k⟩, ?_, ?_⟩
  · rw [run, iterate_getD_zero]
    with_unfolding_all decide
  · rw [run, show nx - 1 = initC.length - 1 from by with_unfolding_all rfl,
      iterate_getD_last]
    with_unfolding_all decide

/-- C9: on fields of length < 3 the step has no interior entries to update
and is the identity, for every number of steps. -/
theorem degenerate_run_unchanged (c : ℚ) (C : List ℚ) (h : C.length < 3) (k : ℕ) :
    (stepOnce c)^[k] C = C := by
  induction k with
  | zero => rfl
  | succ k ih => rw [Function.iterate_succ_apply', ih, stepOnce_short c C h]

theorem degenerate_run_unchanged_witness :
    ([5, 7] : List ℚ).length < 3 ∧ (stepOnce r)^[4] [5, 7] = [5, 7] :=
  ⟨by decide, degenerate_run_unchanged r [5, 7] (by decide) 4⟩

/-- C6: the grid starts at 0, is evenly spaced with spacing `dx`, has
`nx = Lx/dx = 600` points, and the `i`-th point is `i * dx`. -/
theorem grid_points (i : ℕ) (hi : i < 600) :
    nx = 600 ∧ Lx / dx = 600 ∧ xgrid.getD i 0 = i * dx
    ∧ (i + 1 < 600 → xgrid.getD (i + 1) 0 - xgrid.getD i 0 = dx) := by
  have hlen : xgrid.length = 600 := by with_unfolding_all rfl
  refine ⟨by with_unfolding_all rfl, by norm_num [Lx, dx],
    xgrid_getD i (by rw [hlen]; omega), ?_⟩
  intro h
  rw [xgrid_getD i (by rw [hlen]; omega), xgrid_getD (i + 1) (by rw [hlen]; omega)]
  push_cast
  ring

theorem grid_points_witness :
    (7 < 600 ∧ nx = 600 ∧ Lx / dx = 600 ∧ xgrid.getD 7 0 = (7 : ℕ) * dx
      ∧ (7 + 1 < 600 → xgrid.getD (7 + 1) 0 - xgrid.getD 7 0 = dx)) :=
  ⟨by decide, grid_points 7 (by decide)⟩

/-- C5: the initial field is a step function: entries whose grid position is
at most `Lx/2` get `C_left = 500`, entries strictly beyond get
`C_right = 0`; the grid point exactly at the midpoint (index 300) gets the
left value. -/
theorem initial_step_function (i : ℕ) (hi : i < nx) :
    (xgrid.getD i 0 ≤ Lx / 2 → initC.getD i 0 = C_left)
    ∧ (Lx / 2 < xgrid.getD i 0 → initC.getD i 0 = C_right)
    ∧ xgrid.getD 300 0 = Lx / 2 ∧ initC.getD 300 0 = C_left := by
  have hx : i < xgrid.length := hi
  refine ⟨?_, ?_, by with_unfolding_all decide, by with_unfolding_all decide⟩
  · intro h
    rw [initC_getD i hx, if_pos h]
  · intro h
    rw [initC_getD i hx, if_neg (not_le.mpr h)]

theorem initial_step_function_witness :
    0 < nx ∧ ((xgrid.getD 0 0 ≤ Lx / 2 → initC.getD 0 0 = C_left)
      ∧ (Lx / 2 < xgrid.getD 0 0 → initC.getD 0 0 = C_right)
      ∧ xgrid.getD 300 0 = Lx / 2 ∧ initC.getD 300 0 = C_left) :=
  ⟨by with_unfolding_all decide, initial_step_function 0 (by with_unfolding_all decide)⟩

lemma r_eq_half : r = 1/2 := by norm_num [r, D, dt, dx]

lemma stepOnce_r_eq : stepOnce r = stepOnce (1/2) := by rw [r_eq_half]

lemma stepOnce_half_interior (C : List ℚ) (i : ℕ) (h1 : 1 ≤ i) (h2 : i + 1 < C.length) :
    (stepOnce (1/2) C).getD i 0 = (C.getD (i - 1) 0 + C.getD (i + 1) 0) / 2 := by
  rw [stepOnce_getD _ _ _ (by omega), if_pos ⟨h1, h2⟩]
  ring

lemma initC_length : initC.length = xgrid.length := by
  rw [initC, List.length_map]

lemma initC_nonInc (i : ℕ) (h : i + 1 < initC.length) :
    initC.getD (i + 1) 0 ≤ initC.getD i 0 := by
  have h1 : i + 1 < xgrid.length := by rwa [initC_length] at h
  have h0 : i < xgrid.length := by omega
  rw [initC_getD i h0, initC_getD (i + 1) h1, xgrid_getD i h0, xgrid_getD (i + 1) h1]
  have hle : (i : ℚ) * dx ≤ ((i + 1 : ℕ) : ℚ) * dx := by
    have hdx : (0 : ℚ) < dx := by norm_num [dx]
    have : (i : ℚ) ≤ ((i + 1 : ℕ) : ℚ) := by push_cast; linarith
    nlinarith
  by_cases hc : ((i + 1 : ℕ) : ℚ) * dx ≤ Lx / 2
  · rw [if_pos hc, if_pos (le_trans hle hc)]
  · rw [if_neg hc]
    have hlr : C_right ≤ C_left := by norm_num [C_left, C_right]
    split
    · exact hlr
    · exact le_refl _

/-- One step with diffusion number 1/2 preserves a non-increasing profile. -/
lemma stepOnce_half_nonInc (C : List ℚ)
    (h : ∀ i, i + 1 < C.length → C.getD (i + 1) 0 ≤ C.getD i 0) :
    ∀ i, i + 1 < C.length →
      (stepOnce (1/2) C).getD (i + 1) 0 ≤ (stepOnce (1/2) C).getD i 0 := by
  intro i hi
  by_cases hi0 : i = 0
  · subst hi0
    rw [stepOnce_getD_zero]
    by_cases h2 : 1 + 1 < C.length
    · rw [stepOnce_half_interior C 1 (le_refl 1) h2]
      have a1 := h 0 (by omega)
      have a2 := h 1 h2
      have e0 : (1 : ℕ) - 1 = 0 := rfl
      rw [e0]
      linarith
    · have hlast : (0 : ℕ) + 1 = C.length - 1 := by omega
      have hl := stepOnce_getD_last (1/2) C
      rw [← hlast] at hl
      rw [hl]
      exact h 0 hi
  · have h1i : 1 ≤ i := by omega
    by_cases h2 : i + 1 + 1 < C.length
    · rw [stepOnce_half_interior C i h1i (by omega),
        stepOnce_half_interior C (i + 1) (by omega) h2]
      have a1 := h (i - 1) (by omega)
      have a2 := h (i + 1) h2
      have e : i - 1 + 1 = i := by omega
      rw [e] at a1
      have e2 : i + 1 - 1 = i := by omega
      rw [e2]
      linarith
    · have hlast : i + 1 = C.length - 1 := by omega
      have hl := stepOnce_getD_last (1/2) C
      rw [← hlast] at hl
      rw [hl, stepOnce_half_interior C i h1i (by omega)]
      have a1 := h (i - 1) (by omega)
      have a2 := h i (by omega)
      have e : i - 1 + 1 = i := by omega
      rw [e] at a1
      linarith

lemma run_nonInc_all (k : ℕ) :
    ∀ i, i + 1 < (run k).length → (run k).getD (i + 1) 0 ≤ (run k).getD i 0 := by
  induction k with
  | zero => exact fun i hi => initC_nonInc i hi
  | succ k ih =>
    simp only [run, Function.iterate_succ_apply', stepOnce_r_eq] at ih ⊢
    intro i hi
    rw [length_stepOnce] at hi
    exact stepOnce_half_nonInc _ ih i hi

/-- C7: starting from the step initial profile, after any `k ≥ 1` steps the
field is non-increasing in the index (no new local extrema appear). -/
theorem run_profile_nonincreasing (k i : ℕ) (_hk : 1 ≤ k)
    (hi : i + 1 < (run k).length) :
    (run k).getD (i + 1) 0 ≤ (run k).getD i 0 :=
  run_nonInc_all k i hi

theorem run_profile_nonincreasing_witness :
    1 ≤ 1 ∧ 0 + 1 < (run 1).length ∧ (run 1).getD (0 + 1) 0 ≤ (run 1).getD 0 0 :=
  ⟨le_refl 1, by with_unfolding_all decide,
    run_profile_nonincreasing 1 0 (le_refl 1) (by with_unfolding_all decide)⟩

lemma sum_eq_sum_getD (l : List ℚ) :
    l.sum = ∑ j in Finset.range l.length, l.getD j 0 := by
  induction l with
  | nil => simp
  | cons a t ih =>
    rw [List.sum_cons, List.length_cons, Finset.sum_range_succ', ih]
    simp only [List.getD_cons_succ, List.getD_cons_zero]
    ring

/-- Telescoping: one step changes the total by `c` times the difference of
the edge gradients of the pre-step field. -/
lemma stepOnce_sum (c : ℚ) (C : List ℚ) (h2 : 2 ≤ C.length) :
    (stepOnce c C).sum = C.sum +
      c * ((C.getD (C.length - 1) 0 - C.getD (C.length - 2) 0)
            - (C.getD 1 0 - C.getD 0 0)) := by
  set n := C.length with hn
  rw [sum_eq_sum_getD, sum_eq_sum_getD, length_stepOnce, ← hn]
  have hstep : ∀ i ∈ Finset.range n, (stepOnce c C).getD i 0
      = C.getD i 0 + (if 1 ≤ i ∧ i + 1 < n then
          c * (C.getD (i - 1) 0 - 2 * C.getD i 0 + C.getD (i + 1) 0) else 0) := by
    intro i hi
    rw [Finset.mem_range] at hi
    rw [stepOnce_getD c C i (by omega)]
    split
    · rfl
    · rw [add_zero]
  rw [Finset.sum_congr rfl hstep, Finset.sum_add_distrib]
  congr 1
  rw [← Finset.sum_filter]
  have hf : (Finset.range n).filter (fun i => 1 ≤ i ∧ i + 1 < n)
      = Finset.Ico 1 (n - 1) := by
    ext j
    simp only [Finset.mem_filter, Finset.mem_range, Finset.mem_Ico]
    omega
  rw [hf, Finset.sum_Ico_eq_sum_range]
  have hn2 : n - 1 - 1 = n - 2 := by omega
  rw [hn2]
  have hterm : ∀ j ∈ Finset.range (n - 2),
      c * (C.getD (1 + j - 1) 0 - 2 * C.getD (1 + j) 0 + C.getD (1 + j + 1) 0)
        = c * ((C.getD (j + 1 + 1) 0 - C.getD (j + 1) 0)
            - (C.getD (j + 1) 0 - C.getD j 0)) := by
    intro j _
    have e1 : 1 + j - 1 = j := by omega
    have e2 : 1 + j = j + 1 := by omega
    rw [e1, e2]
    ring
  rw [Finset.sum_congr rfl hterm, ← Finset.mul_sum]
  congr 1
  rw [Finset.sum_range_sub (fun j => C.getD (j + 1) 0 - C.getD j 0) (n - 2)]
  have e4 : n - 2 + 1 = n - 1 := by omega
  rw [e4]

/-- C8 (amended): the change in total mass at one stepping call equals
`r * ((C[nx-1] - C[nx-2]) - (C[1] - C[0]))` on the pre-step field; it is not
strictly decreasing at every call. -/
theorem mass_change_per_step (C : List ℚ) (h : 3 ≤ C.length) :
    (stepOnce r C).sum = C.sum +
      r * ((C.getD (C.length - 1) 0 - C.getD (C.length - 2) 0)
            - (C.getD 1 0 - C.getD 0 0)) :=
  stepOnce_sum r C (by omega)

theorem mass_change_per_step_witness :
    3 ≤ ([1, 2, 4] : List ℚ).length ∧
    (stepOnce r [1, 2, 4]).sum = ([1, 2, 4] : List ℚ).sum +
      r * ((([1, 2, 4] : List ℚ).getD (([1, 2, 4] : List ℚ).length - 1) 0
              - ([1, 2, 4] : List ℚ).getD (([1, 2, 4] : List ℚ).length - 2) 0)
            - (([1, 2, 4] : List ℚ).getD 1 0 - ([1, 2, 4] : List ℚ).getD 0 0)) :=
  ⟨by decide, mass_change_per_step [1, 2, 4] (by decide)⟩

/-- Counterexample to strict mass decrease at every step: the first stepping
call of the concrete run leaves the total mass exactly unchanged, because
both edge gradients of the step initial profile are zero. -/
theorem first_step_mass_conserved :
    (run 1).sum = (run 0).sum ∧ ¬ ((run 1).sum < (run 0).sum) := by
  have hlen : (run 0).length = 600 := by with_unfolding_all rfl
  have hstep : run 1 = stepOnce r (run 0) := by
    rw [run, run, Function.iterate_one, Function.iterate_zero_apply]
  have h1 : (run 1).sum = (run 0).sum := by
    rw [hstep, stepOnce_sum r (run 0) (by rw [hlen]; omega), hlen]
    have g599 : (run 0).getD (600 - 1) 0 = 0 := by with_unfolding_all decide
    have g598 : (run 0).getD (600 - 2) 0 = 0 := by with_unfolding_all decide
    have g1 : (run 0).getD 1 0 = 500 := by with_unfolding_all decide
    have g0 : (run 0).getD 0 0 = 500 := by with_unfolding_all decide
    rw [g599, g598, g1, g0]
    ring
  exact ⟨h1, by rw [h1]; exact lt_irrefl _⟩

/-- Bounds are preserved by one step with diffusion number 1/2: interior
entries become averages of two pre-step entries, boundary entries are
copied. -/
lemma stepOnce_half_bounds (C : List ℚ) (lo hi : ℚ)
    (h : ∀ j, j < C.length → lo ≤ C.getD j 0 ∧ C.getD j 0 ≤ hi) :
    ∀ i, i < C.length →
      lo ≤ (stepOnce (1/2) C).getD i 0 ∧ (stepOnce (1/2) C).getD i 0 ≤ hi := by
  intro i hi'
  by_cases hint : 1 ≤ i ∧ i + 1 < C.length
  · rw [stepOnce_half_interior C i hint.1 hint.2]
    have a1 := h (i - 1) (by omega)
    have a2 := h (i + 1) (by omega)
    constructor
    · linarith [a1.1, a2.1]
    · linarith [a1.2, a2.2]
  · rw [stepOnce_getD _ _ _ hi', if_neg hint]
    exact h i hi'

lemma initC_bounds : ∀ j, j < initC.length → 0 ≤ initC.getD j 0 ∧ initC.getD j 0 ≤ 500 := by
  intro j hj
  have hx : j < xgrid.length := by rwa [initC_length] at hj
  rw [initC_getD j hx]
  split
  · norm_num [C_left]
  · norm_num [C_right]

lemma run_bounds (k : ℕ) :
    ∀ i, i < (run k).length → 0 ≤ (run k).getD i 0 ∧ (run k).getD i 0 ≤ 500 := by
  induction k with
  | zero => exact fun i hi => initC_bounds i hi
  | succ k ih =>
    simp only [run, Function.iterate_succ_apply', stepOnce_r_eq] at ih ⊢
    intro i hi
    rw [length_stepOnce] at hi
    exact stepOnce_half_bounds _ 0 500 ih i hi

/-- C10: with the derived diffusion number 1/2, the interior update is the
convex combination `(C[i-1] + C[i+1]) / 2`; one step keeps every entry
inside any interval containing all pre-step entries, and every entry of
every field of the concrete run lies in `[0, 500]`. -/
theorem convex_update_max_principle :
    (∀ (C : List ℚ) (i : ℕ), 1 ≤ i → i + 1 < C.length →
        (stepOnce r C).getD i 0 = (C.getD (i - 1) 0 + C.getD (i + 1) 0) / 2)
    ∧ (∀ (C : List ℚ) (lo hi : ℚ),
        (∀ j, j < C.length → lo ≤ C.getD j 0 ∧ C.getD j 0 ≤ hi) →
        ∀ i, i < C.length →
          lo ≤ (stepOnce r C).getD i 0 ∧ (stepOnce r C).getD i 0 ≤ hi)
    ∧ (∀ k i : ℕ, i < (run k).length →
        0 ≤ (run k).getD i 0 ∧ (run k).getD i 0 ≤ 500) := by
  refine ⟨?_, ?_, fun k i hi => run_bounds k i hi⟩
  · intro C i h1 h2
    rw [stepOnce_r_eq]
    exact stepOnce_half_interior C i h1 h2
  · intro C lo hi h i hi'
    rw [stepOnce_r_eq]
    exact stepOnce_half_bounds C lo hi h i hi'

theorem convex_update_max_principle_witness :
    ((stepOnce r [1, 2, 4]).getD 1 0
        = (([1, 2, 4] : List ℚ).getD (1 - 1) 0 + ([1, 2, 4] : List ℚ).getD (1 + 1) 0) / 2)
    ∧ ((∀ j, j < ([10, 20] : List ℚ).length →
          (10 : ℚ) ≤ ([10, 20] : List ℚ).getD j 0 ∧ ([10, 20] : List ℚ).getD j 0 ≤ 20) →
        (10 : ℚ) ≤ (stepOnce r [10, 20]).getD 0 0 ∧ (stepOnce r [10, 20]).getD 0 0 ≤ 20)
    ∧ (0 ≤ (run 1).getD 0 0 ∧ (run 1).getD 0 0 ≤ 500) :=
  ⟨convex_update_max_principle.1 [1, 2, 4] 1 (le_refl 1) (by decide),
    fun h => convex_update_max_principle.2.1 [10, 20] 10 20 h 0 (by decide),
    convex_update_max_principle.2.2 1 0 (by with_unfolding_all decide)⟩

end Diffusion
